import Mathlib

/-!
Shallow embedding of the f80 crate (src/lib.rs): an 80-bit x87
extended-precision float stored in a 128-bit integer, with field accessors
and a software conversion producing the bit pattern of an IEEE-754 binary64
value.  Machine integers are modelled as Nat (unsigned) and Int (signed),
with explicit reductions modulo 2 ^ w at the points where the Rust code
performs a narrowing cast, a sign-changing cast, or wrapping arithmetic.
-/

/-- Rust: `pub struct f80 { bits: u128 }` — the 80-bit float stored inside a
`u128` container. -/
structure f80 where
  bits : ℕ
deriving DecidableEq

namespace f80

/-- Rust `from_bits`: new f80 from the specified bits, clearing any bits over
80 (`bits & ((1 << 80) - 1)`). -/
def from_bits (b : ℕ) : f80 :=
  ⟨b &&& (2 ^ 80 - 1)⟩

/-- Rust `to_bits`: returns the stored pattern. -/
def to_bits (x : f80) : ℕ :=
  x.bits

/-- Rust `range(start, end)`: extract the bits `[start, end)` as
`(self.bits & ((1 << end) - 1)) >> start`. -/
def range (x : f80) (start stop : ℕ) : ℕ :=
  (x.bits &&& (2 ^ stop - 1)) >>> start

/-- Rust `fraction`: `self.range(0, 63) as u64`; the narrowing `as u64` cast
reduces modulo 2 ^ 64. -/
def fraction (x : f80) : ℕ :=
  x.range 0 63 % 2 ^ 64

/-- Rust `int`: `self.range(63, 64) == 1`. -/
def int (x : f80) : Bool :=
  x.range 63 64 == 1

/-- Rust `exp_bits`: `self.range(64, 79) as u16`; the narrowing `as u16` cast
reduces modulo 2 ^ 16. -/
def exp_bits (x : f80) : ℕ :=
  x.range 64 79 % 2 ^ 16

/-- The Rust `u16 as i16` cast: reinterpret a 16-bit unsigned value as a
two's-complement signed value. -/
def u16_as_i16 (n : ℕ) : ℤ :=
  if n < 2 ^ 15 then (n : ℤ) else (n : ℤ) - 2 ^ 16

/-- Wrapping `i16` arithmetic (release-mode semantics): reduce an integer
into the interval `[-2 ^ 15, 2 ^ 15)`. -/
def i16_wrap (z : ℤ) : ℤ :=
  (z + 2 ^ 15) % 2 ^ 16 - 2 ^ 15

/-- Rust `exp`: `self.exp_bits() as i16 - ((1 << 14) - 1)`, the `i16`
subtraction taken with wrapping semantics. -/
def exp (x : f80) : ℤ :=
  i16_wrap (u16_as_i16 x.exp_bits - ((2 ^ 14) - 1))

/-- Rust `sign`: `self.range(79, 80) == 1`. -/
def sign (x : f80) : Bool :=
  x.range 79 80 == 1

/-- The Rust `i16 as u64` cast: sign-extend and reinterpret, i.e. reduce
modulo 2 ^ 64 into `[0, 2 ^ 64)`. -/
def i16_as_u64 (z : ℤ) : ℕ :=
  (z % 2 ^ 64).toNat

/-- Rust `to_f64` up to (but not including) the final bit-reinterpretation
`f64::from_bits`: the assembled 64-bit output pattern, built exactly as in
the source.  The `u64` addition and shifts wrap modulo 2 ^ 64 (release-mode
semantics, matching the wrapping behaviour the crate itself relies on). -/
def to_f64_bits (x : f80) : ℕ :=
  -- let mut fraction = self.fraction() as u64; fraction >>= 64 - 53;
  let fraction := x.fraction >>> (64 - 53)
  -- let f64_bias = (1 << 10) - 1;
  let f64_bias : ℕ := 2 ^ 10 - 1
  -- let mut exp = self.exp() as u64; exp += f64_bias;
  let exp := (i16_as_u64 x.exp + f64_bias) % 2 ^ 64
  -- let sign = self.sign() as u64;
  let sign : ℕ := if x.sign then 1 else 0
  -- let mut output = 0; output |= sign;
  let output : ℕ := 0 ||| sign
  -- output <<= 11; output |= exp & ((1 << 11) - 1);
  let output := (output <<< 11) % 2 ^ 64 ||| (exp &&& (2 ^ 11 - 1))
  -- output <<= 52; output |= fraction & ((1 << 52) - 1);
  let output := (output <<< 52) % 2 ^ 64 ||| (fraction &&& (2 ^ 52 - 1))
  output

/-- Modelled from the spec: the `mantissa()` accessor (`range(0, 64)`, the
full 64-bit mantissa read as one unsigned quantity, spec sections 3 and 4.1)
is described by the spec but absent from src/lib.rs. -/
def mantissa (x : f80) : ℕ :=
  x.range 0 64

end f80

/-- The sign bit of an IEEE-754 binary64 bit pattern (how `f64::from_bits`
interprets bit 63). -/
def f64_sign_field (b : ℕ) : ℕ :=
  (b >>> 63) &&& 1

/-- The 11-bit exponent field of an IEEE-754 binary64 bit pattern. -/
def f64_exp_field (b : ℕ) : ℕ :=
  (b >>> 52) &&& (2 ^ 11 - 1)

/-- The 52-bit fraction field of an IEEE-754 binary64 bit pattern. -/
def f64_frac_field (b : ℕ) : ℕ :=
  b &&& (2 ^ 52 - 1)

/-- Whether `f64::from_bits b` is an infinity: exponent field all ones and
fraction field zero. -/
def f64_isInf (b : ℕ) : Bool :=
  f64_exp_field b == 2 ^ 11 - 1 && f64_frac_field b == 0

/-- Whether `f64::from_bits b` is a NaN: exponent field all ones and fraction
field nonzero. -/
def f64_isNaN (b : ℕ) : Bool :=
  f64_exp_field b == 2 ^ 11 - 1 && f64_frac_field b != 0

/-- The exact rational value of a finite IEEE-754 binary64 bit pattern.
Patterns with exponent field 2047 encode infinities and NaNs and have no
finite value; this decoder is only applied to finite patterns. -/
def f64_val (b : ℕ) : ℚ :=
  let s : ℚ := if f64_sign_field b == 1 then -1 else 1
  let e := f64_exp_field b
  let f := f64_frac_field b
  if e == 0 then s * ((f : ℚ) / 2 ^ 52) * 2 / 2 ^ 1023
  else s * (1 + (f : ℚ) / 2 ^ 52) * 2 ^ e / 2 ^ 1023

namespace f80

/-! ### Arithmetic normal forms of the accessors -/

/-- The bit-range primitive in plain division/remainder form. -/
theorem range_eq (x : f80) (start stop : ℕ) :
    x.range start stop = x.bits % 2 ^ stop / 2 ^ start := by
  simp [range, Nat.and_pow_two_sub_one_eq_mod, Nat.shiftRight_eq_div_pow]

theorem range_lt (x : f80) (start stop : ℕ) :
    x.range start stop < 2 ^ (stop - start) := by
  rw [range_eq, Nat.div_lt_iff_lt_mul (Nat.pos_pow_of_pos start (by norm_num)),
    ← Nat.pow_add]
  calc x.bits % 2 ^ stop < 2 ^ stop := Nat.mod_lt _ (Nat.pos_pow_of_pos stop (by norm_num))
    _ ≤ 2 ^ (stop - start + start) := Nat.pow_le_pow_right (by norm_num) (by omega)

theorem fraction_eq (x : f80) : x.fraction = x.bits % 2 ^ 63 := by
  have h := range_lt x 0 63
  rw [fraction, Nat.mod_eq_of_lt (lt_trans h (by norm_num)), range_eq]
  simp

theorem fraction_lt (x : f80) : x.fraction < 2 ^ 63 := by
  rw [fraction_eq]
  exact Nat.mod_lt _ (by norm_num)

theorem exp_bits_eq (x : f80) : x.exp_bits = x.bits % 2 ^ 79 / 2 ^ 64 := by
  have h := range_lt x 64 79
  rw [exp_bits, Nat.mod_eq_of_lt (lt_trans h (by norm_num)), range_eq]

theorem exp_bits_lt (x : f80) : x.exp_bits < 2 ^ 15 := by
  have h := range_lt x 64 79
  rw [exp_bits, Nat.mod_eq_of_lt (lt_trans h (by norm_num))]
  exact h

/-- The biased-exponent accessor never wraps: it is exactly
`exp_bits - 16383` as a mathematical integer. -/
theorem exp_eq (x : f80) : x.exp = (x.exp_bits : ℤ) - 16383 := by
  have h := exp_bits_lt x
  rw [exp, u16_as_i16, if_pos h, i16_wrap]
  have h1 : ((x.exp_bits : ℤ) - (2 ^ 14 - 1) + 2 ^ 15) % 2 ^ 16
      = (x.exp_bits : ℤ) - (2 ^ 14 - 1) + 2 ^ 15 :=
    Int.emod_eq_of_lt (by push_cast; omega) (by push_cast; omega)
  omega

theorem exp_lb (x : f80) : -16383 ≤ x.exp := by
  have := exp_eq x
  omega

theorem exp_ub (x : f80) : x.exp ≤ 16384 := by
  have h1 := exp_eq x
  have h2 := exp_bits_lt x
  omega

theorem sign_iff (x : f80) : x.sign = true ↔ x.bits % 2 ^ 80 / 2 ^ 79 = 1 := by
  rw [sign, range_eq]
  exact beq_iff_eq

/-! ### Structure of the assembled 64-bit output -/

/-- OR-ing low bits into a left-shifted accumulator is plain addition. -/
theorem or_shl_eq_add (a : ℕ) {b n : ℕ} (h : b < 2 ^ n) :
    (a <<< n) ||| b = a * 2 ^ n + b := by
  rw [Nat.shiftLeft_eq, Nat.mul_comm a]
  exact (Nat.mul_add_lt_is_or h a).symm

/-- The wrapped `u64` exponent re-bias, masked to 11 bits, is the
two's-complement residue of `exp + 1023` modulo 2 ^ 11. -/
theorem exp_field_reduce (z : ℤ) :
    ((i16_as_u64 z + (2 ^ 10 - 1)) % 2 ^ 64) % 2 ^ 11
      = ((z + 1023) % 2 ^ 11).toNat := by
  rw [i16_as_u64]
  omega

/-- Master decomposition: the assembled output pattern is the sum of its
three disjoint fields. -/
theorem to_f64_bits_eq (x : f80) :
    x.to_f64_bits = (if x.sign then 1 else 0) * 2 ^ 63
      + ((x.exp + 1023) % 2 ^ 11).toNat * 2 ^ 52 + x.fraction / 2 ^ 11 := by
  have hflt : x.fraction / 2 ^ 11 < 2 ^ 52 := by
    have := fraction_lt x
    omega
  have helt : ((x.exp + 1023) % 2 ^ 11).toNat < 2 ^ 11 := by omega
  have hs : (if x.sign then (1 : ℕ) else 0) ≤ 1 := by split <;> norm_num
  have hsub : (64 : ℕ) - 53 = 11 := by norm_num
  simp only [to_f64_bits, Nat.zero_or, Nat.and_pow_two_sub_one_eq_mod, hsub,
    Nat.shiftRight_eq_div_pow, exp_field_reduce]
  set s : ℕ := if x.sign then 1 else 0
  set e : ℕ := ((x.exp + 1023) % 2 ^ 11).toNat
  set f : ℕ := x.fraction / 2 ^ 11
  have e1 : s <<< 11 % 2 ^ 64 = s <<< 11 :=
    Nat.mod_eq_of_lt (by rw [Nat.shiftLeft_eq]; omega)
  rw [e1, or_shl_eq_add s helt]
  have e2 : (s * 2 ^ 11 + e) <<< 52 % 2 ^ 64 = (s * 2 ^ 11 + e) <<< 52 :=
    Nat.mod_eq_of_lt (by rw [Nat.shiftLeft_eq]; omega)
  rw [e2, or_shl_eq_add _ (Nat.mod_lt f (show 0 < 2 ^ 52 by norm_num))]
  have e3 : f % 2 ^ 52 = f := Nat.mod_eq_of_lt hflt
  rw [e3]
  ring

/-- The three IEEE-754 fields of the assembled output pattern. -/
theorem to_f64_fields (x : f80) :
    f64_sign_field x.to_f64_bits = (if x.sign then 1 else 0)
      ∧ f64_exp_field x.to_f64_bits = ((x.exp + 1023) % 2 ^ 11).toNat
      ∧ f64_frac_field x.to_f64_bits = x.fraction / 2 ^ 11 := by
  have h := to_f64_bits_eq x
  have hf : x.fraction / 2 ^ 11 < 2 ^ 52 := by
    have := fraction_lt x
    omega
  have he : ((x.exp + 1023) % 2 ^ 11).toNat < 2 ^ 11 := by omega
  have hs : (if x.sign then (1 : ℕ) else 0) ≤ 1 := by split <;> norm_num
  unfold f64_sign_field f64_exp_field f64_frac_field
  rw [h]
  simp only [Nat.and_pow_two_sub_one_eq_mod, Nat.shiftRight_eq_div_pow,
    Nat.and_one_is_mod]
  refine ⟨?_, ?_, ?_⟩ <;> omega

/-- Under the reserved exponent field 0x7FFF the assembled output always has
the finite exponent field 1023: `(16384 + 1023) % 2048 = 1023`. -/
theorem reserved_exp_output (x : f80) (h1 : x.exp_bits = 32767) :
    f64_exp_field x.to_f64_bits = 1023 := by
  have he : x.exp = 16384 := by
    rw [exp_eq, h1]
    norm_num
  have hef := (to_f64_fields x).2.1
  rw [he] at hef
  norm_num at hef
  exact hef

/-- OR-ing bits below a multiple of 2 ^ i is plain addition. -/
theorem or_mul_eq_add {b i : ℕ} (h : b < 2 ^ i) (a : ℕ) :
    (2 ^ i * a) ||| b = 2 ^ i * a + b :=
  (Nat.mul_add_lt_is_or h a).symm

/-- The general-path packing formula as the specification words it:
`(sign as 1 bit) << 63 | ((exponent() + 1023) masked to 11 bits) << 52 |
(fraction() >> 11) masked to 52 bits`, the signed exponent masked in
two's complement. -/
def spec_pack (x : f80) : ℕ :=
  (((if x.sign then 1 else 0) <<< 63)
      ||| (((x.exp + 1023) % 2 ^ 11).toNat <<< 52))
    ||| ((x.fraction >>> 11) &&& (2 ^ 52 - 1))

/-- The specification's packing formula decomposes into the same sum of
disjoint fields as the implementation. -/
theorem spec_pack_eq (x : f80) :
    spec_pack x = (if x.sign then 1 else 0) * 2 ^ 63
      + ((x.exp + 1023) % 2 ^ 11).toNat * 2 ^ 52 + x.fraction / 2 ^ 11 := by
  unfold spec_pack
  have hf : x.fraction / 2 ^ 11 < 2 ^ 52 := by
    have := fraction_lt x
    omega
  have he : ((x.exp + 1023) % 2 ^ 11).toNat < 2 ^ 11 := by omega
  have hs : (if x.sign then (1 : ℕ) else 0) ≤ 1 := by split <;> norm_num
  simp only [Nat.and_pow_two_sub_one_eq_mod, Nat.shiftRight_eq_div_pow,
    Nat.shiftLeft_eq]
  rw [Nat.mod_eq_of_lt hf]
  set s : ℕ := if x.sign then 1 else 0
  set e : ℕ := ((x.exp + 1023) % 2 ^ 11).toNat
  set f : ℕ := x.fraction / 2 ^ 11
  have h1 : s * 2 ^ 63 ||| e * 2 ^ 52 = s * 2 ^ 63 + e * 2 ^ 52 := by
    rw [show s * 2 ^ 63 = 2 ^ 63 * s by ring]
    exact or_mul_eq_add (by omega) s
  rw [h1, show s * 2 ^ 63 + e * 2 ^ 52 = 2 ^ 52 * (s * 2 ^ 11 + e) by ring,
    or_mul_eq_add hf]

/-! ### Claim theorems -/

/-- C1, counterexample: at the pattern with exponent field 0x7FFF, integer
bit 0, fraction 0 and sign 0, the claim demands positive infinity, but
`to_f64` produces the bit pattern 0x3FF0000000000000 (the double 1.0),
which is not an infinity. -/
theorem c1_counterexample :
    (from_bits (32767 * 2 ^ 64)).exp_bits = 32767
      ∧ (from_bits (32767 * 2 ^ 64)).int = false
      ∧ (from_bits (32767 * 2 ^ 64)).fraction = 0
      ∧ (from_bits (32767 * 2 ^ 64)).sign = false
      ∧ (from_bits (32767 * 2 ^ 64)).to_f64_bits = 4607182418800017408
      ∧ f64_isInf ((from_bits (32767 * 2 ^ 64)).to_f64_bits) = false := by
  decide

/-- C1, amended: with exponent field 0x7FFF, integer bit 0 and zero
fraction, `to_f64` does not special-case.  The general path runs and yields
the finite pattern `sign * 2^63 + 1023 * 2^52` (the double ±1.0, since
`(16384 + 1023) % 2048 = 1023`), never an infinity. -/
theorem c1_amended (x : f80) (h1 : x.exp_bits = 32767) (_h2 : x.int = false)
    (h3 : x.fraction = 0) :
    x.to_f64_bits = (if x.sign then 1 else 0) * 2 ^ 63 + 1023 * 2 ^ 52
      ∧ f64_isInf x.to_f64_bits = false := by
  have he : x.exp = 16384 := by
    rw [exp_eq, h1]
    norm_num
  have hb := to_f64_bits_eq x
  rw [he, h3] at hb
  have hef := reserved_exp_output x h1
  refine ⟨?_, ?_⟩
  · have ht : ((16384 + 1023 : ℤ) % 2 ^ 11).toNat = 1023 := by decide
    rw [hb, ht]
    norm_num
  · rw [f64_isInf, hef]
    norm_num

/-- C1, witness for the amended claim, at the sign = 1 instance
(exponent field 0x7FFF, integer bit 0, fraction 0, sign bit set). -/
theorem c1_amended_witness :
    (from_bits (2 ^ 79 + 32767 * 2 ^ 64)).to_f64_bits
        = (if (from_bits (2 ^ 79 + 32767 * 2 ^ 64)).sign then 1 else 0) * 2 ^ 63
          + 1023 * 2 ^ 52
      ∧ f64_isInf ((from_bits (2 ^ 79 + 32767 * 2 ^ 64)).to_f64_bits) = false :=
  c1_amended (from_bits (2 ^ 79 + 32767 * 2 ^ 64)) (by decide) (by decide)
    (by decide)

/-- C2, counterexample: the pattern with exponent field 0x7FFF, integer bit
1 and fraction 0 (the x87 encoding of +∞, which the claim maps to NaN)
converts to the double 1.0, not a NaN. -/
theorem c2_counterexample :
    (from_bits (32767 * 2 ^ 64 + 2 ^ 63)).exp_bits = 32767
      ∧ (from_bits (32767 * 2 ^ 64 + 2 ^ 63)).int = true
      ∧ (from_bits (32767 * 2 ^ 64 + 2 ^ 63)).to_f64_bits = 4607182418800017408
      ∧ f64_isNaN ((from_bits (32767 * 2 ^ 64 + 2 ^ 63)).to_f64_bits) = false := by
  decide

/-- C2, amended: for every value with exponent field 0x7FFF — whatever the
integer bit and fraction — `to_f64` runs the general path and produces a
pattern whose exponent field is 1023, hence never a NaN. -/
theorem c2_amended (x : f80) (h1 : x.exp_bits = 32767) :
    f64_exp_field x.to_f64_bits = 1023 ∧ f64_isNaN x.to_f64_bits = false := by
  have hef := reserved_exp_output x h1
  refine ⟨hef, ?_⟩
  rw [f64_isNaN, hef]
  norm_num

/-- C2, witness for the amended claim, at the instance with integer bit 0
and nonzero fraction (a claimed-NaN encoding). -/
theorem c2_amended_witness :
    f64_exp_field ((from_bits (32767 * 2 ^ 64 + 123)).to_f64_bits) = 1023
      ∧ f64_isNaN ((from_bits (32767 * 2 ^ 64 + 123)).to_f64_bits) = false :=
  c2_amended (from_bits (32767 * 2 ^ 64 + 123)) (by decide)

/-- C3: away from the reserved exponent pattern, the output bit pattern is
exactly the specification's packing `(sign) << 63 | ((exponent() + 1023)
masked to 11 bits) << 52 | ((fraction() >> 11) masked to 52 bits)`, with the
low 11 fraction bits truncated and no exponent clamping. -/
theorem c3_general_path (x : f80) (_h : x.exp_bits ≠ 32767) :
    x.to_f64_bits = spec_pack x := by
  rw [to_f64_bits_eq, spec_pack_eq]

/-- C3, witness at the √64 pattern. -/
theorem c3_general_path_witness :
    (from_bits 302277571763841567555584).exp_bits ≠ 32767
      ∧ (from_bits 302277571763841567555584).to_f64_bits
          = spec_pack (from_bits 302277571763841567555584) :=
  ⟨by decide, c3_general_path (from_bits 302277571763841567555584) (by decide)⟩

/-- C4: `from_bits` masks its argument with `(1 << 80) - 1` and never fails,
so a round trip through `to_bits` returns exactly the masked input and the
stored pattern has bits 80–127 clear. -/
theorem c4_mask_roundtrip (b : ℕ) :
    (from_bits b).to_bits = b &&& (2 ^ 80 - 1)
      ∧ (from_bits b).to_bits < 2 ^ 80 := by
  refine ⟨rfl, ?_⟩
  rw [to_bits, from_bits, Nat.and_pow_two_sub_one_eq_mod]
  exact Nat.mod_lt _ (by norm_num)

/-- C5: `exp` is exactly `exp_bits - 16383` as a mathematical integer (the
signed 16-bit subtraction never wraps), the two accessors differ by exactly
16383 on every input, and the result lies in [-16383, 16384]. -/
theorem c5_bias_symmetry (x : f80) :
    x.exp = (x.exp_bits : ℤ) - 16383
      ∧ (x.exp_bits : ℤ) - x.exp = 16383
      ∧ -16383 ≤ x.exp ∧ x.exp ≤ 16384 := by
  have h1 := exp_eq x
  have h2 := exp_bits_lt x
  refine ⟨h1, ?_, ?_, ?_⟩ <;> omega

/-- C6: the mantissa accessor (modelled from the spec as `range(0, 64)`)
returns the concatenation of the integer bit (bit 63) with the 63 fraction
bits. -/
theorem c6_mantissa_concat (x : f80) :
    x.mantissa = (if x.int then 1 else 0) * 2 ^ 63 + x.fraction := by
  have hm : x.mantissa = x.bits % 2 ^ 64 := by
    rw [mantissa, range_eq]
    simp
  have hr := range_eq x 63 64
  have hf := fraction_eq x
  cases hi : x.int <;>
    simp only [int, beq_iff_eq, beq_eq_false_iff_ne, ne_eq, hr] at hi <;>
    simp only [if_true, if_false, Bool.false_eq_true, ite_false, ite_true] <;>
    omega

/-- C7: the two known raw patterns convert to doubles within 1e-6 of 8.0
(√64) and of 5.65685424949238 (√32). -/
theorem c7_known_values :
    |f64_val ((from_bits 302277571763841567555584).to_f64_bits) - 8|
        < 1 / 1000000
      ∧ |f64_val ((from_bits 302262945465556336010372).to_f64_bits)
            - 565685424949238 / 100000000000000| < 1 / 1000000 := by
  have h1 : (from_bits 302277571763841567555584).to_f64_bits
      = 4620693217682128896 := by decide
  have h2 : (from_bits 302262945465556336010372).to_f64_bits
      = 4618055070099913676 := by decide
  have s1 : f64_sign_field 4620693217682128896 = 0 := by decide
  have e1 : f64_exp_field 4620693217682128896 = 1026 := by decide
  have fr1 : f64_frac_field 4620693217682128896 = 0 := by decide
  have s2 : f64_sign_field 4618055070099913676 = 0 := by decide
  have e2 : f64_exp_field 4618055070099913676 = 1025 := by decide
  have fr2 : f64_frac_field 4618055070099913676 = 1865452045155276 := by decide
  rw [h1, h2]
  constructor
  · rw [f64_val, s1, e1, fr1, abs_sub_lt_iff]
    constructor <;> norm_num
  · rw [f64_val, s2, e2, fr2, abs_sub_lt_iff]
    constructor <;> norm_num

/-- C8: the pattern with sign 0, exponent bits 0b100000000000010, integer
bit 1 and fraction 0 reports exactly the claimed field values. -/
theorem c8_extract :
    (from_bits (16386 * 2 ^ 64 + 2 ^ 63)).sign = false
      ∧ (from_bits (16386 * 2 ^ 64 + 2 ^ 63)).exp_bits = 16386
      ∧ (from_bits (16386 * 2 ^ 64 + 2 ^ 63)).exp = 3
      ∧ (from_bits (16386 * 2 ^ 64 + 2 ^ 63)).int = true
      ∧ (from_bits (16386 * 2 ^ 64 + 2 ^ 63)).fraction = 0 := by
  decide

/-- C9: every public operation is total — under release (wrapping)
semantics none can fail — and every intermediate fits its declared machine
type: the stored pattern fits 80 bits, the narrowing casts inside
`fraction` and `exp_bits` are value-preserving, the signed 16-bit exponent
arithmetic stays in `i16` range, and the assembled output fits a `u64`. -/
theorem c9_totality (b : ℕ) :
    (from_bits b).to_bits < 2 ^ 80
      ∧ (from_bits b).fraction = (from_bits b).range 0 63
      ∧ (from_bits b).fraction < 2 ^ 64
      ∧ (from_bits b).exp_bits = (from_bits b).range 64 79
      ∧ (from_bits b).exp_bits < 2 ^ 16
      ∧ -(2 ^ 15) ≤ (from_bits b).exp ∧ (from_bits b).exp < 2 ^ 15
      ∧ (from_bits b).to_f64_bits < 2 ^ 64 := by
  set x := from_bits b with hx
  have hto : x.to_bits < 2 ^ 80 := (c4_mask_roundtrip b).2
  have hfr := range_lt x 0 63
  have hfe : x.fraction = x.range 0 63 :=
    Nat.mod_eq_of_lt (lt_trans hfr (by norm_num))
  have heb := range_lt x 64 79
  have hee : x.exp_bits = x.range 64 79 :=
    Nat.mod_eq_of_lt (lt_trans heb (by norm_num))
  have hex := exp_eq x
  have hebl := exp_bits_lt x
  have hout := to_f64_bits_eq x
  have hfl : x.fraction / 2 ^ 11 < 2 ^ 52 := by
    have := fraction_lt x
    omega
  have hel : ((x.exp + 1023) % 2 ^ 11).toNat < 2 ^ 11 := by omega
  have hsl : (if x.sign then (1 : ℕ) else 0) ≤ 1 := by split <;> norm_num
  refine ⟨hto, hfe, ?_, hee, ?_, ?_, ?_, ?_⟩ <;> omega

/-- C10: the converted double depends only on the sign bit, the exponent
field and the upper 52 fraction bits — the integer bit and the lowest 11
fraction bits never influence the result. -/
theorem c10_noninterference (x y : f80) (hs : x.sign = y.sign)
    (he : x.exp_bits = y.exp_bits)
    (hf : x.fraction >>> 11 = y.fraction >>> 11) :
    x.to_f64_bits = y.to_f64_bits := by
  rw [Nat.shiftRight_eq_div_pow, Nat.shiftRight_eq_div_pow] at hf
  rw [to_f64_bits_eq, to_f64_bits_eq, hs, exp_eq, exp_eq, he, hf]

/-- C10, witness: two patterns differing exactly in the integer bit and the
low fraction bits convert to the same double. -/
theorem c10_noninterference_witness :
    (from_bits (2 ^ 63 + 5)).sign = (from_bits 0).sign
      ∧ (from_bits (2 ^ 63 + 5)).exp_bits = (from_bits 0).exp_bits
      ∧ (from_bits (2 ^ 63 + 5)).fraction >>> 11 = (from_bits 0).fraction >>> 11
      ∧ (from_bits (2 ^ 63 + 5)).to_f64_bits = (from_bits 0).to_f64_bits :=
  ⟨by decide, by decide, by decide,
    c10_noninterference (from_bits (2 ^ 63 + 5)) (from_bits 0) (by decide)
      (by decide) (by decide)⟩

end f80
